import Mathlib

/-!
Shallow embedding of the tolerance-band comparators and the socket
instrument link of the connectivity test repository.

Sources embedded:
* `acts/tests/google/wifi/WifiRvrTest.py`, `WifiRvrTest.pass_fail_check`
  (lines 84-140): the plain RvR comparator (k = 2 nearest golden points).
* `acts/framework/acts/test_utils/coex/CoexPerformanceBaseTest.py`,
  `get_throughput_limits` (374-425) and `throughput_pass_fail_check`
  (326-372): the coexistence comparator (k = 3 nearest baseline points,
  failure-count aggregation over bt-attenuation groups).
* `acts/framework/acts/controllers/gnssinst_lib/abstract_inst.py`,
  `SocketInstrument._send` / `_recv` / `_query` (94-196).

Numbers are embedded as rationals: the Python code computes with floats,
and every claim is about the exact arithmetic the expressions denote.
Python's builtin `sorted` is documented stable; `List.insertionSort` is a
stable sort, so it is the faithful model of `sorted(..., key=...)`.
-/

namespace Spec2Proof

/-! ## Data model

The golden/reference JSON carries parallel lists `attenuation` and
`throughput_receive` indexed by the same `idx`, plus a scalar
`fixed_attenuation`; the sweep result dict has the same shape.  Both are
embedded as a list of (attenuation, throughput) pairs plus the offset. -/

/-- A golden/reference dataset or a measured sweep: pointwise paired
`attenuation` and throughput lists, plus the `fixed_attenuation` offset. -/
structure RefData where
  points : List (ℚ × ℚ)
  fixed_attenuation : ℚ
  deriving DecidableEq

/-- The tolerance configuration consumed from `self.test_params`. -/
structure TolParams where
  abs_tolerance : ℚ
  pct_tolerance : ℚ
  deriving DecidableEq

/-- Coexistence configuration: the tolerances plus
`failure_count_tolerance`. -/
structure CoexParams extends TolParams where
  failure_count_tolerance : ℕ
  deriving DecidableEq

/-- `gldn_attenuation`: each reference attenuation plus the dataset's
`fixed_attenuation` (WifiRvrTest.py 100-104, CoexPerformanceBaseTest.py
320-324). -/
def gldnAttenuation (ref : RefData) : List ℚ :=
  ref.points.map (fun p => p.1 + ref.fixed_attenuation)

/-- `att_distances`: absolute distance of the current effective
attenuation to every reference effective attenuation (WifiRvrTest.py
108-110). -/
def attDistances (gldnAtt : List ℚ) (currentAtt : ℚ) : List ℚ :=
  gldnAtt.map (fun g => |currentAtt - g|)

/-- The comparison `sorted(enumerate(att_distances), key=lambda x: x[1])`
performs: pairs ordered by their distance component only. -/
def distLe (x y : ℕ × ℚ) : Prop := x.2 ≤ y.2

instance : DecidableRel distLe := fun x y => inferInstanceAs (Decidable (x.2 ≤ y.2))

/-- `closest_indeces`: first `k` entries of the stable distance sort of
`enumerate(att_distances)`, projected to the index component
(WifiRvrTest.py 111-113, CoexPerformanceBaseTest.py 405-407). -/
def closestIndices (k : ℕ) (dists : List ℚ) : List ℕ :=
  (((dists.enum).insertionSort distLe).take k).map Prod.fst

/-- `closest_throughputs` before sorting: the reference throughput at each
selected index (WifiRvrTest.py 114-117). -/
def closestValues (k : ℕ) (ref : RefData) (currentAtt : ℚ) : List ℚ :=
  (closestIndices k (attDistances (gldnAttenuation ref) currentAtt)).map
    (fun i => (ref.points.getD i (0, 0)).2)

/-- `closest_throughputs.sort()` (WifiRvrTest.py 118). -/
def sortedClosest (k : ℕ) (ref : RefData) (currentAtt : ℚ) : List ℚ :=
  (closestValues k ref currentAtt).insertionSort (· ≤ ·)

/-- The lower limit formula applied to a reference value
(WifiRvrTest.py 121-124, CoexPerformanceBaseTest.py 414-418). -/
def lowerLimit (t : TolParams) (v : ℚ) : ℚ :=
  max (v - max t.abs_tolerance (v * t.pct_tolerance / 100)) 0

/-- The upper limit formula applied to a reference value
(WifiRvrTest.py 124-126, CoexPerformanceBaseTest.py 419-421). -/
def upperLimit (t : TolParams) (v : ℚ) : ℚ :=
  v + max t.abs_tolerance (v * t.pct_tolerance / 100)

/-- `allowed_throughput_range` of the RvR comparator: the two selected
throughputs sorted ascending, limits from `closest_throughputs[0]` and
`closest_throughputs[1]`.  With fewer than two golden points the Python
indexing raises `IndexError`, embedded as `none`. -/
def rvrBand (t : TolParams) (ref : RefData) (currentAtt : ℚ) : Option (ℚ × ℚ) :=
  match sortedClosest 2 ref currentAtt with
  | t0 :: t1 :: _ => some (lowerLimit t t0, upperLimit t t1)
  | _ => none

/-- The coexistence band: limits from `closest_throughputs[0]` and
`closest_throughputs[-1]` (CoexPerformanceBaseTest.py 414-421).  With an
empty baseline the Python indexing raises, embedded as `none`. -/
def coexBand (t : TolParams) (ref : RefData) (currentAtt : ℚ) : Option (ℚ × ℚ) :=
  match sortedClosest 3 ref currentAtt with
  | [] => none
  | t0 :: rest => some (lowerLimit t t0, upperLimit t (rest.getLastD t0))

/-- The RvR failure test (WifiRvrTest.py 128-134): the point is flagged
when `current - lower < -abs_tolerance` or
`current - upper > abs_tolerance`. -/
def rvrFailCond (absTol meas lo hi : ℚ) : Bool :=
  decide (meas - lo < -absTol) || decide (meas - hi > absTol)

/-- The coexistence failure test (CoexPerformanceBaseTest.py 349-352):
the point is flagged when it is strictly outside `[lower, upper]`. -/
def coexFailCond (meas lo hi : ℚ) : Bool :=
  decide (meas < lo) || decide (meas > hi)

/-- Outcome of `WifiRvrTest.pass_fail_check`.  Opening a missing or
unparsable golden file raises out of the method (`refUnavailable`);
a golden file with fewer than two points raises `IndexError`
(`dataError`); the first out-of-limits point raises `asserts.fail` with
its attenuation, throughput and band (`fail`); otherwise the method ends
in `asserts.explicit_pass` (`explicitPass`). -/
inductive RvrOutcome where
  | refUnavailable
  | dataError
  | fail (att meas lower upper : ℚ)
  | explicitPass
  deriving DecidableEq

/-- The per-point loop of `pass_fail_check` (WifiRvrTest.py 105-140). -/
def rvrCheckPoints (t : TolParams) (ref : RefData) (fixedAtt : ℚ) :
    List (ℚ × ℚ) → RvrOutcome
  | [] => .explicitPass
  | pt :: rest =>
    let currentAtt := pt.1 + fixedAtt
    match rvrBand t ref currentAtt with
    | none => .dataError
    | some (lo, hi) =>
      if rvrFailCond t.abs_tolerance pt.2 lo hi then .fail currentAtt pt.2 lo hi
      else rvrCheckPoints t ref fixedAtt rest

/-- `WifiRvrTest.pass_fail_check`: `golden = none` models a missing or
malformed golden results file (the `open`/`json.load` exception
propagates). -/
def rvrPassFailCheck (t : TolParams) (golden : Option RefData) (sweep : RefData) :
    RvrOutcome :=
  match golden with
  | none => .refUnavailable
  | some ref => rvrCheckPoints t ref sweep.fixed_attenuation sweep.points

/-! ## Coexistence aggregation

`throughput_pass_fail_check` computes `get_throughput_limits` for every
bt-attenuation group first, then walks the groups accumulating a failure
count, returning `False` as soon as the accumulated count reaches
`failure_count_tolerance`; the success path falls off the end of the
method (Python returns `None`), and any exception — the performance file
missing from `performance_files_list`, unparsable JSON, or an
`IndexError` inside `get_throughput_limits` — is caught and also ends
with `None`.  The return value is embedded as `Option Bool`:
`some false` for the failure verdict, `none` for both `None` paths. -/

/-- One bt-attenuation group: the measured sweep `self.rvr[bt_atten]`
and the baseline `performance_results[str(bt_atten)]`. -/
structure CoexGroup where
  sweep : RefData
  ref : RefData
  deriving DecidableEq

/-- Collect a list of optional values, failing if any entry is `none`:
the shape of a Python loop that appends per-point results and raises on
the first bad point. -/
def allSome {β : Type} : List (Option β) → Option (List β)
  | [] => some []
  | none :: _ => none
  | some b :: rest => (allSome rest).map (b :: ·)

/-- `get_throughput_limits` for one group: the band of every sweep point
(CoexPerformanceBaseTest.py 397-421), `none` when the baseline indexing
raises. -/
def coexGroupLimits (t : TolParams) (g : CoexGroup) : Option (List (ℚ × ℚ)) :=
  allSome (g.sweep.points.map (fun pt => coexBand t g.ref (pt.1 + g.sweep.fixed_attenuation)))

/-- Failure count contributed by one group in the check loop
(CoexPerformanceBaseTest.py 345-353): sweep points zipped with their
limits, counting those strictly outside. -/
def countGroupFailures (grp : List ((ℚ × ℚ) × (ℚ × ℚ))) : ℕ :=
  (grp.filter (fun x => coexFailCond x.1.2 x.2.1 x.2.2)).length

/-- The accumulation loop of `throughput_pass_fail_check` (343-369):
after each group the accumulated count is compared to the tolerance with
`>=`; the method body ends without a return statement (`none`). -/
def coexLoop (tol : ℕ) (count : ℕ) : List (List ((ℚ × ℚ) × (ℚ × ℚ))) → Option Bool
  | [] => none
  | grp :: rest =>
    let count' := count + countGroupFailures grp
    if tol ≤ count' then some false else coexLoop tol count' rest

/-- `throughput_pass_fail_check`: `data = none` models a missing or
unparsable performance file (the exception is caught, the method logs a
warning and returns `None`). -/
def coexThroughputPassFailCheck (p : CoexParams) (data : Option (List CoexGroup)) :
    Option Bool :=
  match data with
  | none => none
  | some groups =>
    match allSome (groups.map (fun g => (coexGroupLimits p.toTolParams g).map
        (fun ls => g.sweep.points.zip ls))) with
    | none => none
    | some zipped => coexLoop p.failure_count_tolerance 0 zipped

/-- Whether one sweep point of a group is out of band (the body of the
count increment, with the band it is checked against). -/
def coexPointFails (t : TolParams) (g : CoexGroup) (pt : ℚ × ℚ) : Bool :=
  match coexBand t g.ref (pt.1 + g.sweep.fixed_attenuation) with
  | none => false
  | some (lo, hi) => coexFailCond pt.2 lo hi

/-- The number of out-of-band points of one group. -/
def coexGroupFailures (t : TolParams) (g : CoexGroup) : ℕ :=
  (g.sweep.points.filter (coexPointFails t g)).length

/-- The accumulated number of out-of-band points across all groups. -/
def coexTotalFailures (t : TolParams) (groups : List CoexGroup) : ℕ :=
  (groups.map (coexGroupFailures t)).sum

/-- Whether one RvR sweep point is out of limits, with the band it is
checked against (the body of the WifiRvrTest.py 128-134 test). -/
def rvrPointFails (t : TolParams) (ref : RefData) (fixedAtt : ℚ) (pt : ℚ × ℚ) : Bool :=
  match rvrBand t ref (pt.1 + fixedAtt) with
  | none => false
  | some (lo, hi) => rvrFailCond t.abs_tolerance pt.2 lo hi

/-! ## Band formula from the spec -/

/-- Modelled from the spec: the tolerance band derived from the selected
reference values, `lower = max(min value - max(abs, min value * pct/100), 0)`
and `upper = max value + max(abs, max value * pct/100)`. -/
def specBand (t : TolParams) : List ℚ → Option (ℚ × ℚ)
  | [] => none
  | v :: vs => some (lowerLimit t (vs.foldr min v), upperLimit t (vs.foldr max v))

/-! ## Instrument link

`SocketInstrument` of `abstract_inst.py`: buffer size 1024, terminator
`'\n'`, encoding UTF-8.  The byte stream is modelled as the list of
chunks successive `recv` calls deliver (each at most the buffer size);
once the list is exhausted, a closed peer delivers empty reads and an
open peer blocks until the socket timeout raises. -/

/-- `self._socket_buffer_size = 1024` (abstract_inst.py 57). -/
def socketBufferSize : ℕ := 1024

/-- `self._escseq` (abstract_inst.py 62). -/
def escseq : String := "\n"

/-- UTF-8 byte encoding of a string (`str.encode(self._codefmt)`). -/
def utf8Bytes (s : String) : List ℕ :=
  s.toUTF8.toList.map (fun b => b.toNat)

/-- Decoding of a received chunk (`resp_tmp.decode(self._codefmt)`),
modelled on the single-byte range of UTF-8: the SCPI protocol surface is
ASCII, where each byte is one character. -/
def decodeChunk (c : List ℕ) : String :=
  String.mk (c.map Char.ofNat)

/-- `str.rstrip(self._escseq)`: drop every trailing terminator
character (abstract_inst.py 159). -/
def rstripNewline (s : String) : String :=
  String.mk ((s.data.reverse.dropWhile (fun ch => ch = Char.ofNat 10)).reverse)

/-- The `while True` loop of `_recv` (abstract_inst.py 136-141): read a
chunk, decode, append, stop when the decoded chunk is shorter than the
buffer size.  When the pending chunks are exhausted: a closed peer
delivers `b''`, whose decoding has length `0 < 1024` and ends the loop
with the accumulated text; an open peer blocks until `socket.timeout`
raises `SocketInstrumentError` (`none`). -/
def recvAux (closed : Bool) (acc : String) : List (List ℕ) → Option String
  | [] =>
    if closed then
      (if 0 < socketBufferSize then some acc else none)
    else none
  | c :: rest =>
    let s := decodeChunk c
    if s.length < socketBufferSize then some (acc ++ s)
    else recvAux closed (acc ++ s) rest

/-- `_recv`: run the loop, then strip trailing terminators. -/
def socketRecv (closed : Bool) (chunks : List (List ℕ)) : Option String :=
  (recvAux closed "" chunks).map rstripNewline

/-- Observable transport events of `_send` and `_recv`. -/
inductive LinkEvent where
  | sent (bytes : List ℕ)
  | recvCall
  deriving DecidableEq

/-- `_send(cmd)` (abstract_inst.py 94-104): append the terminator,
encode, write all bytes. -/
def sendEvents (cmd : String) : List LinkEvent :=
  [.sent (utf8Bytes (cmd ++ escseq))]

/-- `_query(cmd)` (abstract_inst.py 183-196): `_send(cmd + ';*OPC?')`
followed by exactly one `_recv()`. -/
def queryEvents (cmd : String) : List LinkEvent :=
  sendEvents (cmd ++ ";*OPC?") ++ [.recvCall]

/-- Whether an event is a receive. -/
def isRecvCall : LinkEvent → Bool
  | .recvCall => true
  | _ => false

/-! ## Stable-sort infrastructure

Python's `sorted(enumerate(ds), key=lambda x: x[1])` sorts by distance
and, being stable, keeps equal-distance entries in ascending-index
order.  Because the input pairs carry strictly increasing indices, the
output is pairwise ordered by the lexicographic order on
(distance, index). -/

/-- Strict lexicographic order on (index, distance) pairs: smaller
distance first, ties in ascending index order. -/
def lexLt (x y : ℕ × ℚ) : Prop := x.2 < y.2 ∨ (x.2 = y.2 ∧ x.1 < y.1)

/-- The relation the claim states between a selected index and another
index: strictly smaller distance, or an equal distance and a smaller
position. -/
def distIdxLt (dists : List ℚ) (i j : ℕ) : Prop :=
  dists.getD i 0 < dists.getD j 0 ∨ (dists.getD i 0 = dists.getD j 0 ∧ i < j)

/-- The RvR band with the `IndexError` case defaulted (used only where
the band is proven defined). -/
def rvrBandD (t : TolParams) (ref : RefData) (att : ℚ) : ℚ × ℚ :=
  (rvrBand t ref att).getD (0, 0)

/-- The coexistence band with the `IndexError` case defaulted (used only
where the band is proven defined). -/
def coexBandD (t : TolParams) (ref : RefData) (att : ℚ) : ℚ × ℚ :=
  (coexBand t ref att).getD (0, 0)

theorem pairwise_lex_orderedInsert (x : ℕ × ℚ) :
    ∀ l : List (ℕ × ℚ), l.Pairwise lexLt → (∀ y ∈ l, x.1 < y.1) →
      (l.orderedInsert distLe x).Pairwise lexLt := by
  intro l
  induction l with
  | nil => intro _ _; simpa using List.Pairwise.nil
  | cons y ys ih =>
    intro hp hidx
    rw [List.orderedInsert]
    split_ifs with hle
    · refine List.Pairwise.cons ?_ hp
      intro z hz
      rcases List.mem_cons.1 hz with rfl | hzys
      · rcases lt_or_eq_of_le hle with h | h
        · exact Or.inl h
        · exact Or.inr ⟨h, hidx z (List.mem_cons_self _ _)⟩
      · have hyz : lexLt y z := (List.pairwise_cons.1 hp).1 z hzys
        have hxy : (x.2 : ℚ) ≤ y.2 := hle
        rcases hyz with h | ⟨he, _⟩
        · rcases lt_or_eq_of_le (le_trans hxy (le_of_lt h)) with h2 | h2
          · exact Or.inl h2
          · exact Or.inr ⟨h2, hidx z (List.mem_cons_of_mem y hzys)⟩
        · rcases lt_or_eq_of_le (le_trans hxy (le_of_eq he)) with h2 | h2
          · exact Or.inl h2
          · exact Or.inr ⟨h2, hidx z (List.mem_cons_of_mem y hzys)⟩
    · have hyx : (y.2 : ℚ) < x.2 := lt_of_not_le hle
      refine List.Pairwise.cons ?_ (ih (List.pairwise_cons.1 hp).2
        (fun z hz => hidx z (List.mem_cons_of_mem y hz)))
      intro z hz
      have hz2 : z = x ∨ z ∈ ys := by
        have := (List.perm_orderedInsert distLe x ys).mem_iff.1 hz
        simpa using this
      rcases hz2 with rfl | hzys
      · exact Or.inl hyx
      · exact (List.pairwise_cons.1 hp).1 z hzys

theorem pairwise_lex_insertionSort :
    ∀ l : List (ℕ × ℚ), l.Pairwise (fun a b => a.1 < b.1) →
      (l.insertionSort distLe).Pairwise lexLt := by
  intro l
  induction l with
  | nil => intro _; simpa using List.Pairwise.nil
  | cons x xs ih =>
    intro hp
    rw [List.insertionSort]
    refine pairwise_lex_orderedInsert x _ (ih (List.pairwise_cons.1 hp).2) ?_
    intro y hy
    exact (List.pairwise_cons.1 hp).1 y ((List.mem_insertionSort distLe).1 hy)

theorem pairwise_index_lt_enumFrom {α : Type} :
    ∀ (n : ℕ) (l : List α), (l.enumFrom n).Pairwise (fun a b => a.1 < b.1) := by
  intro n l
  induction l generalizing n with
  | nil => simpa using List.Pairwise.nil
  | cons a l ih =>
    rw [List.enumFrom]
    refine List.Pairwise.cons ?_ (ih (n + 1))
    intro y hy
    have : n + 1 ≤ y.1 := by
      have := List.mk_mem_enumFrom_iff_le_and_getElem?_sub.1 (by simpa using hy)
      exact this.1
    omega

theorem pairwise_index_lt_enum {α : Type} (l : List α) :
    (l.enum).Pairwise (fun a b => a.1 < b.1) :=
  pairwise_index_lt_enumFrom 0 l

/-! ## Fold characterizations of min and max over a nonempty list -/

theorem foldr_min_mem (v : ℚ) : ∀ vs : List ℚ, vs.foldr min v ∈ v :: vs := by
  intro vs
  induction vs with
  | nil => simp
  | cons a vs ih =>
    rw [List.foldr_cons]
    rcases min_choice a (vs.foldr min v) with h | h <;> rw [h]
    · simp
    · rcases List.mem_cons.1 ih with h2 | h2
      · simp [h2]
      · simp [List.mem_cons_of_mem, h2]

theorem foldr_min_le (v : ℚ) :
    ∀ (vs : List ℚ) (x : ℚ), x ∈ v :: vs → vs.foldr min v ≤ x := by
  intro vs
  induction vs with
  | nil => intro x hx; simp at hx; simp [hx]
  | cons a vs ih =>
    intro x hx
    rw [List.foldr_cons]
    rcases List.mem_cons.1 hx with rfl | hx2
    · exact le_trans (min_le_right _ _) (ih x (List.mem_cons_self _ _))
    · rcases List.mem_cons.1 hx2 with rfl | hx3
      · exact min_le_left _ _
      · exact le_trans (min_le_right _ _) (ih x (List.mem_cons_of_mem _ hx3))

theorem foldr_max_mem (v : ℚ) : ∀ vs : List ℚ, vs.foldr max v ∈ v :: vs := by
  intro vs
  induction vs with
  | nil => simp
  | cons a vs ih =>
    rw [List.foldr_cons]
    rcases max_choice a (vs.foldr max v) with h | h <;> rw [h]
    · simp
    · rcases List.mem_cons.1 ih with h2 | h2
      · simp [h2]
      · simp [List.mem_cons_of_mem, h2]

theorem le_foldr_max (v : ℚ) :
    ∀ (vs : List ℚ) (x : ℚ), x ∈ v :: vs → x ≤ vs.foldr max v := by
  intro vs
  induction vs with
  | nil => intro x hx; simp at hx; simp [hx]
  | cons a vs ih =>
    intro x hx
    rw [List.foldr_cons]
    rcases List.mem_cons.1 hx with rfl | hx2
    · exact le_trans (ih x (List.mem_cons_self _ _)) (le_max_right _ _)
    · rcases List.mem_cons.1 hx2 with rfl | hx3
      · exact le_max_left _ _
      · exact le_trans (ih x (List.mem_cons_of_mem _ hx3)) (le_max_right _ _)

/-! ## Head and last of an ascending sort -/

theorem sorted_le_getLastD :
    ∀ (l : List ℚ) (a : ℚ), List.Sorted (· ≤ ·) (a :: l) →
      ∀ x ∈ a :: l, x ≤ l.getLastD a := by
  intro l
  induction l with
  | nil =>
    intro a _ x hx
    simp only [List.mem_singleton] at hx
    simp [hx]
  | cons b l ih =>
    intro a hs x hx
    have hs2 : List.Sorted (· ≤ ·) (b :: l) := hs.of_cons
    rw [List.getLastD_cons]
    rcases List.mem_cons.1 hx with rfl | hx2
    · exact le_trans (List.rel_of_sorted_cons hs b (List.mem_cons_self _ _))
        (ih b hs2 b (List.mem_cons_self _ _))
    · exact ih b hs2 x hx2

theorem getLastD_mem : ∀ (l : List ℚ) (a : ℚ), l.getLastD a ∈ a :: l := by
  intro l
  induction l with
  | nil => simp
  | cons b l ih =>
    intro a
    rw [List.getLastD_cons]
    rcases List.mem_cons.1 (ih b) with h | h
    · rw [h]; exact List.mem_cons_of_mem a (List.mem_cons_self b l)
    · exact List.mem_cons_of_mem a (List.mem_cons_of_mem b h)

/-- The ascending insertion sort of a nonempty rational list starts with
the minimum of the list and ends with its maximum. -/
theorem insertionSort_minmax (v : ℚ) (vs : List ℚ) :
    ∃ rest, List.insertionSort (· ≤ ·) (v :: vs) = (vs.foldr min v) :: rest ∧
      rest.getLastD (vs.foldr min v) = vs.foldr max v := by
  have hperm : List.Perm (List.insertionSort (· ≤ ·) (v :: vs)) (v :: vs) :=
    List.perm_insertionSort _ _
  have hs : List.Sorted (· ≤ ·) (List.insertionSort (· ≤ ·) (v :: vs)) :=
    List.sorted_insertionSort _ _
  rcases hsort : List.insertionSort (· ≤ ·) (v :: vs) with _ | ⟨t0, rest⟩
  · exact absurd (hsort ▸ hperm.length_eq) (by simp)
  rw [hsort] at hperm hs
  have hmem : ∀ x ∈ t0 :: rest, x ∈ v :: vs := fun x hx => hperm.subset hx
  have hmem2 : ∀ x ∈ v :: vs, x ∈ t0 :: rest := fun x hx => hperm.symm.subset hx
  have ht0 : t0 = vs.foldr min v := by
    refine le_antisymm ?_ (foldr_min_le v vs t0 (hmem t0 (List.mem_cons_self _ _)))
    rcases List.mem_cons.1 (hmem2 _ (foldr_min_mem v vs)) with h | h
    · exact le_of_eq h.symm
    · exact List.rel_of_sorted_cons hs _ h
  refine ⟨rest, by rw [← ht0], ?_⟩
  rw [← ht0]
  refine le_antisymm
    (le_foldr_max v vs _ (hmem _ (getLastD_mem rest t0)))
    (sorted_le_getLastD rest t0 hs _ (hmem2 _ (foldr_max_mem v vs)))

/-! ## The selected indices -/

theorem length_closestIndices (k : ℕ) (dists : List ℚ) :
    (closestIndices k dists).length = min k dists.length := by
  simp [closestIndices]

theorem mem_sortPairs (dists : List ℚ) (x : ℕ × ℚ) :
    x ∈ (dists.enum).insertionSort distLe ↔ dists[x.1]? = some x.2 := by
  rw [List.mem_insertionSort, List.mem_enum_iff_getElem?]

theorem closestIndices_spec (k : ℕ) (dists : List ℚ) :
    (∀ i ∈ closestIndices k dists, i < dists.length) ∧
    (∀ i ∈ closestIndices k dists, ∀ j, j < dists.length →
      j ∉ closestIndices k dists → distIdxLt dists i j) ∧
    List.Pairwise (distIdxLt dists) (closestIndices k dists) := by
  set s := (dists.enum).insertionSort distLe with hs_def
  have hlex : s.Pairwise lexLt :=
    pairwise_lex_insertionSort _ (pairwise_index_lt_enum dists)
  have hmem_s : ∀ x ∈ s, dists[x.1]? = some x.2 := fun x hx => (mem_sortPairs dists x).1 hx
  have hmem_lt : ∀ x ∈ s, x.1 < dists.length := by
    intro x hx
    exact (List.getElem?_eq_some.1 (hmem_s x hx)).1
  have hmem_getD : ∀ x ∈ s, dists.getD x.1 0 = x.2 := by
    intro x hx
    rw [List.getD_eq_getElem?_getD, hmem_s x hx, Option.getD_some]
  have htake : ∀ x ∈ s.take k, x ∈ s := fun x hx => (List.take_sublist k s).subset hx
  refine ⟨?_, ?_, ?_⟩
  · intro i hi
    rcases List.mem_map.1 hi with ⟨x, hx, rfl⟩
    exact hmem_lt x (htake x hx)
  · intro i hi j hj hjnot
    rcases List.mem_map.1 hi with ⟨x, hx, rfl⟩
    have hxj : (j, dists.getD j 0) ∈ s := by
      rw [mem_sortPairs]
      simp only [List.getD_eq_getElem?_getD]
      rcases List.getElem?_eq_some.2 ⟨hj, rfl⟩ with h
      rw [h, Option.getD_some]
    have hdrop : (j, dists.getD j 0) ∈ s.drop k := by
      have hsplit : s.take k ++ s.drop k = s := List.take_append_drop k s
      rcases List.mem_append.1 (by rw [hsplit]; exact hxj) with h | h
      · exact absurd (List.mem_map.2 ⟨(j, dists.getD j 0), h, rfl⟩) hjnot
      · exact h
    have hcross : lexLt x (j, dists.getD j 0) := by
      have hpw : (s.take k ++ s.drop k).Pairwise lexLt := by
        rw [List.take_append_drop]; exact hlex
      exact (List.pairwise_append.1 hpw).2.2 x hx _ hdrop
    rcases hcross with h | ⟨he, hlt⟩
    · exact Or.inl (by rw [hmem_getD x (htake x hx)]; exact h)
    · exact Or.inr ⟨by rw [hmem_getD x (htake x hx)]; exact he, hlt⟩
  · unfold closestIndices
    rw [← hs_def, List.pairwise_map]
    have hpw : (s.take k).Pairwise lexLt := hlex.sublist (List.take_sublist k s)
    refine List.Pairwise.imp_of_mem ?_ hpw
    intro a b ha hb hab
    rcases hab with h | ⟨he, hlt⟩
    · exact Or.inl (by
        rw [hmem_getD a (htake a ha), hmem_getD b (htake b hb)]; exact h)
    · exact Or.inr ⟨by
        rw [hmem_getD a (htake a ha), hmem_getD b (htake b hb)]; exact he, hlt⟩

/-! ## The band formulas against the spec formula -/

theorem length_closestValues (k : ℕ) (ref : RefData) (att : ℚ) :
    (closestValues k ref att).length = min k ref.points.length := by
  simp [closestValues, length_closestIndices, attDistances, gldnAttenuation]

theorem eq_some_getD {α : Type} (o : Option α) (d : α) (h : ∃ b, o = some b) :
    o = some (o.getD d) := by
  rcases h with ⟨b, rfl⟩; rfl

theorem coexBand_eq_specBand (t : TolParams) (ref : RefData) (att : ℚ)
    (h : 1 ≤ ref.points.length) :
    coexBand t ref att = specBand t (closestValues 3 ref att) := by
  have hlen : (closestValues 3 ref att).length = min 3 ref.points.length :=
    length_closestValues 3 ref att
  rcases hvals : closestValues 3 ref att with _ | ⟨v, vs⟩
  · rw [hvals] at hlen
    simp at hlen
    omega
  rcases insertionSort_minmax v vs with ⟨rest, hsort, hlast⟩
  have hcb : coexBand t ref att =
      some (lowerLimit t (vs.foldr min v),
        upperLimit t (rest.getLastD (vs.foldr min v))) := by
    rw [coexBand, sortedClosest, hvals, hsort]
  have hsb : specBand t (v :: vs) =
      some (lowerLimit t (vs.foldr min v), upperLimit t (vs.foldr max v)) := rfl
  rw [hsb, hcb, hlast]

theorem rvrBand_eq_specBand (t : TolParams) (ref : RefData) (att : ℚ)
    (h : 2 ≤ ref.points.length) :
    rvrBand t ref att = specBand t (closestValues 2 ref att) := by
  have hlen : (closestValues 2 ref att).length = min 2 ref.points.length :=
    length_closestValues 2 ref att
  have hlen2 : (closestValues 2 ref att).length = 2 := by omega
  rcases hvals : closestValues 2 ref att with _ | ⟨v, vs⟩
  · rw [hvals] at hlen2; simp at hlen2
  rcases insertionSort_minmax v vs with ⟨rest, hsort, hlast⟩
  have hlsort : (List.insertionSort (· ≤ ·) (v :: vs)).length = 2 := by
    rw [List.length_insertionSort, ← hvals, hlen2]
  rw [hsort] at hlsort
  rcases rest with _ | ⟨r, rtail⟩
  · simp at hlsort
  rcases rtail with _ | ⟨r2, rtail2⟩
  · have hr : r = vs.foldr max v := hlast
    have hrb : rvrBand t ref att =
        some (lowerLimit t (vs.foldr min v), upperLimit t r) := by
      rw [rvrBand, sortedClosest, hvals, hsort]
    have hsb : specBand t (v :: vs) =
        some (lowerLimit t (vs.foldr min v), upperLimit t (vs.foldr max v)) := rfl
    rw [hsb, hrb, hr]
  · simp at hlsort

theorem rvrBand_eq_some (t : TolParams) (ref : RefData) (att : ℚ)
    (h : 2 ≤ ref.points.length) :
    rvrBand t ref att = some (rvrBandD t ref att) := by
  refine eq_some_getD _ _ ?_
  have hlen : (closestValues 2 ref att).length = min 2 ref.points.length :=
    length_closestValues 2 ref att
  have hlen2 : (closestValues 2 ref att).length = 2 := by omega
  rcases hvals : closestValues 2 ref att with _ | ⟨v, vs⟩
  · rw [hvals] at hlen2; simp at hlen2
  exact ⟨(lowerLimit t (vs.foldr min v), upperLimit t (vs.foldr max v)),
    by rw [rvrBand_eq_specBand t ref att h, hvals]; rfl⟩

theorem coexBand_eq_some (t : TolParams) (ref : RefData) (att : ℚ)
    (h : ref.points ≠ []) :
    coexBand t ref att = some (coexBandD t ref att) := by
  have h1 : 1 ≤ ref.points.length := by
    rcases hpts : ref.points with _ | ⟨a, l⟩
    · exact absurd hpts h
    · simp [hpts]
  refine eq_some_getD _ _ ?_
  have hlen : (closestValues 3 ref att).length = min 3 ref.points.length :=
    length_closestValues 3 ref att
  rcases hvals : closestValues 3 ref att with _ | ⟨v, vs⟩
  · rw [hvals] at hlen; simp at hlen; omega
  exact ⟨(lowerLimit t (vs.foldr min v), upperLimit t (vs.foldr max v)),
    by rw [coexBand_eq_specBand t ref att h1, hvals]; rfl⟩

/-! ## Aggregation characterizations -/

theorem rvrCheckPoints_eq_find (t : TolParams) (ref : RefData) (fixedAtt : ℚ)
    (h2 : 2 ≤ ref.points.length) :
    ∀ pts : List (ℚ × ℚ), rvrCheckPoints t ref fixedAtt pts =
      ((pts.find? (rvrPointFails t ref fixedAtt)).map (fun pt =>
        RvrOutcome.fail (pt.1 + fixedAtt) pt.2 (rvrBandD t ref (pt.1 + fixedAtt)).1
          (rvrBandD t ref (pt.1 + fixedAtt)).2)).getD .explicitPass := by
  intro pts
  induction pts with
  | nil => rfl
  | cons pt rest ih =>
    rcases hbd : rvrBandD t ref (pt.1 + fixedAtt) with ⟨lo, hi⟩
    have hband := rvrBand_eq_some t ref (pt.1 + fixedAtt) h2
    rw [hbd] at hband
    have hpf : rvrPointFails t ref fixedAtt pt = rvrFailCond t.abs_tolerance pt.2 lo hi := by
      simp only [rvrPointFails]
      rw [hband]
    have hstep : rvrCheckPoints t ref fixedAtt (pt :: rest) =
        (if rvrFailCond t.abs_tolerance pt.2 lo hi then
          RvrOutcome.fail (pt.1 + fixedAtt) pt.2 lo hi
        else rvrCheckPoints t ref fixedAtt rest) := by
      simp only [rvrCheckPoints]
      rw [hband]
    by_cases hf : rvrFailCond t.abs_tolerance pt.2 lo hi = true
    · rw [List.find?_cons_of_pos _ (by rw [hpf]; exact hf), hstep, if_pos hf,
        Option.map_some', Option.getD_some, hbd]
    · rw [List.find?_cons_of_neg _ (by rw [hpf]; exact hf), hstep, if_neg hf]
      exact ih

theorem allSome_map_eq_some {α β : Type} (f : α → Option β) (gf : α → β) :
    ∀ l : List α, (∀ a ∈ l, f a = some (gf a)) →
      allSome (l.map f) = some (l.map gf) := by
  intro l
  induction l with
  | nil => intro _; rfl
  | cons a l ih =>
    intro h
    have ha := h a (List.mem_cons_self a l)
    rw [List.map_cons, List.map_cons, ha]
    show (allSome (l.map f)).map (gf a :: ·) = _
    rw [ih (fun x hx => h x (List.mem_cons_of_mem a hx))]
    rfl

theorem coexGroupLimits_eq (t : TolParams) (g : CoexGroup) (h : g.ref.points ≠ []) :
    coexGroupLimits t g = some (g.sweep.points.map
      (fun pt => coexBandD t g.ref (pt.1 + g.sweep.fixed_attenuation))) := by
  rw [coexGroupLimits]
  exact allSome_map_eq_some _ _ _ (fun pt _ => coexBand_eq_some t g.ref _ h)

theorem zip_map_self {α β : Type} (f : α → β) :
    ∀ l : List α, l.zip (l.map f) = l.map (fun a => (a, f a)) := by
  intro l
  induction l with
  | nil => rfl
  | cons a l ih => rw [List.map_cons, List.map_cons, List.zip_cons_cons, ih]

theorem countGroupFailures_zip (t : TolParams) (g : CoexGroup) (h : g.ref.points ≠ []) :
    countGroupFailures (g.sweep.points.zip (g.sweep.points.map
      (fun pt => coexBandD t g.ref (pt.1 + g.sweep.fixed_attenuation)))) =
    coexGroupFailures t g := by
  rw [zip_map_self, countGroupFailures, coexGroupFailures, List.filter_map,
    List.length_map]
  congr 1
  apply List.filter_congr
  intro pt _
  simp only [Function.comp]
  rw [coexPointFails, coexBand_eq_some t g.ref _ h]

theorem coexLoop_some_false (tol : ℕ) :
    ∀ (zs : List (List ((ℚ × ℚ) × (ℚ × ℚ)))) (c : ℕ), zs ≠ [] →
      (coexLoop tol c zs = some false ↔
        tol ≤ c + (zs.map countGroupFailures).sum) := by
  intro zs
  induction zs with
  | nil => intro c h; exact absurd rfl h
  | cons grp rest ih =>
    intro c _
    show (if tol ≤ c + countGroupFailures grp then some false
      else coexLoop tol (c + countGroupFailures grp) rest) = some false ↔ _
    rw [List.map_cons, List.sum_cons]
    by_cases hif : tol ≤ c + countGroupFailures grp
    · rw [if_pos hif]
      constructor
      · intro _; omega
      · intro _; rfl
    · rw [if_neg hif]
      rcases hrest : rest with _ | ⟨r2, rs⟩
      · subst hrest
        constructor
        · intro hcontra; exact absurd hcontra (by simp [coexLoop])
        · intro hle; exfalso; simp at hle; omega
      · rw [← hrest]
        rw [ih (c + countGroupFailures grp) (by rw [hrest]; simp)]
        omega

theorem coexCheck_iff (p : CoexParams) (groups : List CoexGroup)
    (hg : groups ≠ []) (hr : ∀ g ∈ groups, g.ref.points ≠ []) :
    coexThroughputPassFailCheck p (some groups) = some false ↔
      p.failure_count_tolerance ≤ coexTotalFailures p.toTolParams groups := by
  have hall : allSome (groups.map (fun g => (coexGroupLimits p.toTolParams g).map
      (fun ls => g.sweep.points.zip ls))) =
      some (groups.map (fun g => g.sweep.points.zip (g.sweep.points.map
        (fun pt => coexBandD p.toTolParams g.ref (pt.1 + g.sweep.fixed_attenuation))))) := by
    apply allSome_map_eq_some
    intro g hgmem
    rw [coexGroupLimits_eq p.toTolParams g (hr g hgmem)]
    rfl
  simp only [coexThroughputPassFailCheck]
  rw [hall]
  show coexLoop p.failure_count_tolerance 0 _ = some false ↔ _
  rw [coexLoop_some_false _ _ 0 (by
    intro hnil
    rcases List.map_eq_nil_iff.1 hnil with h
    exact hg h)]
  have hsum : ((groups.map (fun g => g.sweep.points.zip (g.sweep.points.map
      (fun pt => coexBandD p.toTolParams g.ref
        (pt.1 + g.sweep.fixed_attenuation))))).map countGroupFailures).sum =
      coexTotalFailures p.toTolParams groups := by
    rw [List.map_map, coexTotalFailures]
    congr 1
    apply List.map_congr_left
    intro g hgmem
    simp only [Function.comp]
    exact countGroupFailures_zip p.toTolParams g (hr g hgmem)
  rw [hsum, Nat.zero_add]

/-! ## Identity comparison -/

theorem gldnAttenuation_getElem (ref : RefData) (i : ℕ) (hi : i < ref.points.length) :
    (gldnAttenuation ref).getD i 0 =
      (ref.points.getD i (0, 0)).1 + ref.fixed_attenuation := by
  have hlen : i < (gldnAttenuation ref).length := by
    simpa [gldnAttenuation] using hi
  rw [List.getD_eq_getElem _ _ hlen, List.getD_eq_getElem _ _ hi]
  simp [gldnAttenuation]

theorem self_mem_closestIndices (ref : RefData) (k : ℕ) (hk : 1 ≤ k)
    (hnodup : (gldnAttenuation ref).Nodup) (i : ℕ) (hi : i < ref.points.length) :
    i ∈ closestIndices k
      (attDistances (gldnAttenuation ref)
        ((ref.points.getD i (0, 0)).1 + ref.fixed_attenuation)) := by
  set gA := gldnAttenuation ref with hgA
  set att := (ref.points.getD i (0, 0)).1 + ref.fixed_attenuation with hatt
  set dists := attDistances gA att with hdists
  have hlenA : gA.length = ref.points.length := by simp [hgA, gldnAttenuation]
  have hlenD : dists.length = ref.points.length := by simp [hdists, attDistances, hlenA]
  have hiD : i < dists.length := by omega
  have hiA : i < gA.length := by omega
  have hself : dists.getD i 0 = 0 := by
    rw [hdists, attDistances, List.getD_eq_getElem _ _ (by simpa using hiA)]
    have : gA[i] = gA.getD i 0 := (List.getD_eq_getElem gA 0 hiA).symm
    rw [List.getElem_map, this, hgA, gldnAttenuation_getElem ref i hi, ← hatt]
    simp
  have huniq : ∀ j, j < dists.length → j ≠ i → 0 < dists.getD j 0 := by
    intro j hj hne
    have hjA : j < gA.length := by omega
    rw [hdists, attDistances,
      List.getD_eq_getElem _ _ (by simpa using hjA), List.getElem_map]
    have hgne : gA[j] ≠ att := by
      intro heq
      have hATT : gA[i] = att := by
        rw [(List.getD_eq_getElem gA 0 hiA).symm, hgA,
          gldnAttenuation_getElem ref i hi, ← hatt]
      have : gA[j] = gA[i] := by rw [heq, hATT]
      exact hne (List.Nodup.getElem_inj_iff hnodup |>.1 this)
    have : att - gA[j] ≠ 0 := fun hz => hgne (by linarith [sub_eq_zero.1 hz])
    exact abs_pos.2 this
  by_contra hnot
  have hspec := closestIndices_spec k dists
  have hlen_sel : (closestIndices k dists).length = min k dists.length :=
    length_closestIndices k dists
  have hpos : 0 < (closestIndices k dists).length := by
    rw [hlen_sel]
    omega
  rcases List.exists_mem_of_length_pos hpos with ⟨i0, hi0⟩
  have hrel := hspec.2.1 i0 hi0 i hiD hnot
  have hi0lt : i0 < dists.length := hspec.1 i0 hi0
  rcases hrel with h | ⟨he, hlt⟩
  · rw [hself] at h
    have hi0A : i0 < gA.length := by omega
    have : 0 ≤ dists.getD i0 0 := by
      rw [hdists, attDistances,
        List.getD_eq_getElem _ _ (by simpa using hi0A), List.getElem_map]
      exact abs_nonneg _
    linarith
  · rw [hself] at he
    have : 0 < dists.getD i0 0 := huniq i0 hi0lt (by omega)
    linarith

theorem specBand_brackets (t : TolParams) (ha : 0 ≤ t.abs_tolerance)
    (vals : List ℚ) (v : ℚ) (hv : v ∈ vals) (hvnn : 0 ≤ v) :
    ∀ lo up, specBand t vals = some (lo, up) → lo ≤ v ∧ v ≤ up := by
  intro lo up hband
  rcases vals with _ | ⟨v0, vs⟩
  · exact absurd hband (by simp [specBand])
  have hsb : specBand t (v0 :: vs) =
      some (lowerLimit t (vs.foldr min v0), upperLimit t (vs.foldr max v0)) := rfl
  rw [hsb] at hband
  simp only [Option.some.injEq, Prod.mk.injEq] at hband
  rcases hband with ⟨hlo, hup⟩
  have hminle : vs.foldr min v0 ≤ v := foldr_min_le v0 vs v hv
  have hmaxge : v ≤ vs.foldr max v0 := le_foldr_max v0 vs v hv
  have hM : 0 ≤ max t.abs_tolerance (vs.foldr min v0 * t.pct_tolerance / 100) :=
    le_trans ha (le_max_left _ _)
  have hM2 : 0 ≤ max t.abs_tolerance (vs.foldr max v0 * t.pct_tolerance / 100) :=
    le_trans ha (le_max_left _ _)
  constructor
  · rw [← hlo, lowerLimit]
    apply max_le _ hvnn
    linarith
  · rw [← hup, upperLimit]
    linarith

theorem identity_band_brackets (t : TolParams) (ref : RefData)
    (ha : 0 ≤ t.abs_tolerance) (hnodup : (gldnAttenuation ref).Nodup)
    (hnn : ∀ pt ∈ ref.points, 0 ≤ pt.2) (k : ℕ) (hk : 1 ≤ k)
    (i : ℕ) (hi : i < ref.points.length) :
    ∀ lo up, specBand t (closestValues k ref
        ((ref.points.getD i (0, 0)).1 + ref.fixed_attenuation)) = some (lo, up) →
      lo ≤ (ref.points.getD i (0, 0)).2 ∧ (ref.points.getD i (0, 0)).2 ≤ up := by
  intro lo up hband
  have hmem : (ref.points.getD i (0, 0)).2 ∈ closestValues k ref
      ((ref.points.getD i (0, 0)).1 + ref.fixed_attenuation) :=
    List.mem_map_of_mem _ (self_mem_closestIndices ref k hk hnodup i hi)
  have hvnn : 0 ≤ (ref.points.getD i (0, 0)).2 := by
    apply hnn
    rw [List.getD_eq_getElem _ _ hi]
    exact List.getElem_mem hi
  exact specBand_brackets t ha _ _ hmem hvnn lo up hband

theorem identity_rvrPointFails (t : TolParams) (ref : RefData)
    (ha : 0 ≤ t.abs_tolerance) (hnodup : (gldnAttenuation ref).Nodup)
    (hnn : ∀ pt ∈ ref.points, 0 ≤ pt.2) (h2 : 2 ≤ ref.points.length)
    (i : ℕ) (hi : i < ref.points.length) :
    rvrPointFails t ref ref.fixed_attenuation (ref.points.getD i (0, 0)) = false := by
  set pt := ref.points.getD i (0, 0) with hpt
  have hband := rvrBand_eq_some t ref (pt.1 + ref.fixed_attenuation) h2
  rcases hbd : rvrBandD t ref (pt.1 + ref.fixed_attenuation) with ⟨lo, up⟩
  rw [hbd] at hband
  have hspec : specBand t (closestValues 2 ref (pt.1 + ref.fixed_attenuation)) =
      some (lo, up) := by
    rw [← rvrBand_eq_specBand t ref _ h2, hband]
  have hbr := identity_band_brackets t ref ha hnodup hnn 2 (by omega) i hi lo up hspec
  simp only [rvrPointFails]
  rw [hband]
  show rvrFailCond t.abs_tolerance pt.2 lo up = false
  simp only [rvrFailCond, Bool.or_eq_false_iff, decide_eq_false_iff_not, not_lt]
  constructor
  · linarith [hbr.1]
  · linarith [hbr.2]

theorem identity_coexPointFails (t : TolParams) (ref : RefData)
    (ha : 0 ≤ t.abs_tolerance) (hnodup : (gldnAttenuation ref).Nodup)
    (hnn : ∀ pt ∈ ref.points, 0 ≤ pt.2) (h1 : 1 ≤ ref.points.length)
    (i : ℕ) (hi : i < ref.points.length) :
    coexPointFails t ⟨ref, ref⟩ (ref.points.getD i (0, 0)) = false := by
  set pt := ref.points.getD i (0, 0) with hpt
  have hne : ref.points ≠ [] := by
    intro hnil
    rw [hnil] at h1
    simp at h1
  have hband := coexBand_eq_some t ref (pt.1 + ref.fixed_attenuation) hne
  rcases hbd : coexBandD t ref (pt.1 + ref.fixed_attenuation) with ⟨lo, up⟩
  rw [hbd] at hband
  have hspec : specBand t (closestValues 3 ref (pt.1 + ref.fixed_attenuation)) =
      some (lo, up) := by
    rw [← coexBand_eq_specBand t ref _ h1, hband]
  have hbr := identity_band_brackets t ref ha hnodup hnn 3 (by omega) i hi lo up hspec
  simp only [coexPointFails]
  rw [hband]
  show coexFailCond pt.2 lo up = false
  simp only [coexFailCond, Bool.or_eq_false_iff, decide_eq_false_iff_not, not_lt]
  exact ⟨hbr.1, hbr.2⟩

theorem identity_rvr_pass (t : TolParams) (ref : RefData)
    (ha : 0 ≤ t.abs_tolerance) (hnodup : (gldnAttenuation ref).Nodup)
    (hnn : ∀ pt ∈ ref.points, 0 ≤ pt.2) (h2 : 2 ≤ ref.points.length) :
    rvrPassFailCheck t (some ref) ref = .explicitPass := by
  show rvrCheckPoints t ref ref.fixed_attenuation ref.points = _
  rw [rvrCheckPoints_eq_find t ref ref.fixed_attenuation h2]
  have hnone : ref.points.find? (rvrPointFails t ref ref.fixed_attenuation) = none := by
    rw [List.find?_eq_none]
    intro pt hpt
    rcases List.mem_iff_getElem.1 hpt with ⟨i, hilt, rfl⟩
    have hfix := identity_rvrPointFails t ref ha hnodup hnn h2 i hilt
    rw [List.getD_eq_getElem _ _ hilt] at hfix
    simp [hfix]
  rw [hnone]
  rfl

theorem identity_coex_zero (t : TolParams) (ref : RefData)
    (ha : 0 ≤ t.abs_tolerance) (hnodup : (gldnAttenuation ref).Nodup)
    (hnn : ∀ pt ∈ ref.points, 0 ≤ pt.2) (h1 : 1 ≤ ref.points.length) :
    coexGroupFailures t ⟨ref, ref⟩ = 0 := by
  rw [coexGroupFailures]
  have hfil : (ref.points.filter (coexPointFails t ⟨ref, ref⟩)) = [] := by
    rw [List.filter_eq_nil_iff]
    intro pt hpt
    rcases List.mem_iff_getElem.1 hpt with ⟨i, hilt, rfl⟩
    have hfix := identity_coexPointFails t ref ha hnodup hnn h1 i hilt
    rw [List.getD_eq_getElem _ _ hilt] at hfix
    simp [hfix]
  show (ref.points.filter (coexPointFails t ⟨ref, ref⟩)).length = 0
  rw [hfil]
  rfl

/-! ## Instrument link lemmas -/

theorem decodeChunk_length (c : List ℕ) : (decodeChunk c).length = c.length := by
  simp [decodeChunk, String.length]

theorem decodeChunk_append (c d : List ℕ) :
    decodeChunk (c ++ d) = decodeChunk c ++ decodeChunk d := by
  simp only [decodeChunk, List.map_append]
  rfl

theorem recvAux_full (chunks : List (List ℕ))
    (h : ∀ c ∈ chunks, c.length = socketBufferSize) :
    ∀ acc : String, recvAux true acc chunks = some (acc ++ decodeChunk chunks.flatten) ∧
      recvAux false acc chunks = none := by
  induction chunks with
  | nil =>
    intro acc
    constructor
    · show (if (0 : ℕ) < socketBufferSize then some acc else none) = _
      rw [if_pos (by simp [socketBufferSize])]
      have hd : decodeChunk (List.flatten []) = "" := rfl
      rw [hd, String.append_empty]
    · rfl
  | cons c rest ih =>
    intro acc
    have hc : c.length = socketBufferSize := h c (List.mem_cons_self _ _)
    have hs : (decodeChunk c).length = socketBufferSize := by
      rw [decodeChunk_length, hc]
    have hnotlt : ¬ (decodeChunk c).length < socketBufferSize := by
      rw [hs]
      exact lt_irrefl _
    have hrest := ih (fun x hx => h x (List.mem_cons_of_mem _ hx))
    constructor
    · show (if (decodeChunk c).length < socketBufferSize
          then some (acc ++ decodeChunk c)
          else recvAux true (acc ++ decodeChunk c) rest) = _
      rw [if_neg hnotlt, (hrest (acc ++ decodeChunk c)).1]
      have hjoin : decodeChunk ((c :: rest).flatten) =
          decodeChunk c ++ decodeChunk rest.flatten := by
        have hj : (c :: rest).flatten = c ++ rest.flatten := rfl
        rw [hj, decodeChunk_append]
      rw [hjoin, String.append_assoc]
    · show (if (decodeChunk c).length < socketBufferSize
          then some (acc ++ decodeChunk c)
          else recvAux false (acc ++ decodeChunk c) rest) = _
      rw [if_neg hnotlt]
      exact (hrest (acc ++ decodeChunk c)).2

/-! ## Claims -/

/-- C1: for every compared sweep point, both comparators derive the
tolerance band from the selected k nearest reference values by the same
formula: lower is `max(min value - max(abs_tolerance, min value *
pct_tolerance / 100), 0)` and upper is `max value + max(abs_tolerance,
max value * pct_tolerance / 100)` (RvR with k = 2, coexistence with
k = 3; the golden dataset has enough points for the indexing to
succeed). -/
theorem C1_band_formula (t : TolParams) (ref : RefData) (att : ℚ)
    (h2 : 2 ≤ ref.points.length) :
    rvrBand t ref att = specBand t (closestValues 2 ref att) ∧
    coexBand t ref att = specBand t (closestValues 3 ref att) :=
  ⟨rvrBand_eq_specBand t ref att h2,
   coexBand_eq_specBand t ref att (by omega)⟩

/-- C1 witness: the band formula agreement at the spec's worked
scenario (reference attenuations 0/10/20, throughputs 100/80/50,
abs_tolerance 5, pct_tolerance 10, compared point at attenuation 10). -/
theorem C1_witness :
    rvrBand ⟨5, 10⟩ ⟨[(0, 100), (10, 80), (20, 50)], 0⟩ 10 =
      specBand ⟨5, 10⟩ (closestValues 2 ⟨[(0, 100), (10, 80), (20, 50)], 0⟩ 10) ∧
    coexBand ⟨5, 10⟩ ⟨[(0, 100), (10, 80), (20, 50)], 0⟩ 10 =
      specBand ⟨5, 10⟩ (closestValues 3 ⟨[(0, 100), (10, 80), (20, 50)], 0⟩ 10) :=
  C1_band_formula ⟨5, 10⟩ ⟨[(0, 100), (10, 80), (20, 50)], 0⟩ 10 (by simp)

/-- C2 counterexample: golden throughputs 100 at attenuations 0 and 10,
abs_tolerance 5, pct_tolerance 0, give the band [95, 105]; the measured
value 91 at attenuation 0 is strictly below the lower bound 95, yet the
RvR comparator does not flag the point — the RvR comparison allows an
extra abs_tolerance of slack beyond the band, so the claim's
strict-bound criterion does not describe the RvR comparator. -/
theorem C2_counterexample :
    rvrBand ⟨5, 0⟩ ⟨[(0, 100), (10, 100)], 0⟩ 0 = some (95, 105) ∧
    (91 : ℚ) < 95 ∧
    rvrPointFails ⟨5, 0⟩ ⟨[(0, 100), (10, 100)], 0⟩ 0 (0, 91) = false ∧
    rvrPassFailCheck ⟨5, 0⟩ (some ⟨[(0, 100), (10, 100)], 0⟩) ⟨[(0, 91)], 0⟩ =
      .explicitPass := by
  refine ⟨?_, by norm_num, ?_, ?_⟩ <;> with_unfolding_all decide

/-- C2 (amended): the coexistence comparator counts a point as a failure
iff its measured value is strictly below the lower bound or strictly
above the upper bound (equality at a bound passes); the RvR comparator
counts a point as a failure iff its measured value is strictly below
`lower - abs_tolerance` or strictly above `upper + abs_tolerance`
(equality at those relaxed thresholds passes). -/
theorem C2_fail_criteria (absTol meas lo up : ℚ) :
    (coexFailCond meas lo up = true ↔ meas < lo ∨ up < meas) ∧
    (rvrFailCond absTol meas lo up = true ↔
      meas < lo - absTol ∨ up + absTol < meas) := by
  constructor
  · simp only [coexFailCond, Bool.or_eq_true, decide_eq_true_eq]
  · simp only [rvrFailCond, Bool.or_eq_true, decide_eq_true_eq]
    constructor
    · rintro (h | h)
      · left; linarith
      · right; linarith
    · rintro (h | h)
      · left; linarith
      · right; linarith

/-- C3: the k selected indices (k = 2 in the RvR comparator, k = 3 in
the coexistence comparator) are exactly the indices of the k smallest
absolute distances, with ties resolved stably: every selected index
beats every unselected index either by a strictly smaller distance or by
an equal distance and a smaller position, and the selected list itself
is ordered by ascending distance with first-seen order among equal
distances. -/
theorem C3_nearest_selection (k : ℕ) (dists : List ℚ) :
    (closestIndices k dists).length = min k dists.length ∧
    (∀ i ∈ closestIndices k dists, i < dists.length) ∧
    (∀ i ∈ closestIndices k dists, ∀ j, j < dists.length →
      j ∉ closestIndices k dists → distIdxLt dists i j) ∧
    List.Pairwise (distIdxLt dists) (closestIndices k dists) :=
  ⟨length_closestIndices k dists, (closestIndices_spec k dists).1,
   (closestIndices_spec k dists).2.1, (closestIndices_spec k dists).2.2⟩

/-- C4: the RvR comparison fails iff at least one point is out of
limits, and the verdict reports the first failing point in sweep order;
the coexistence comparison returns its failure verdict iff the
accumulated number of failing points across all bt-attenuation groups
reaches the configured failure_count_tolerance (golden data has at least
two points, at least one group, nonempty baselines, so that no Python
exception preempts the comparison). -/
theorem C4_aggregation (t : TolParams) (ref sweep : RefData) (p : CoexParams)
    (groups : List CoexGroup) (h2 : 2 ≤ ref.points.length) (hg : groups ≠ [])
    (hr : ∀ g ∈ groups, g.ref.points ≠ []) :
    (rvrPassFailCheck t (some ref) sweep =
      ((sweep.points.find? (rvrPointFails t ref sweep.fixed_attenuation)).map (fun pt =>
        RvrOutcome.fail (pt.1 + sweep.fixed_attenuation) pt.2
          (rvrBandD t ref (pt.1 + sweep.fixed_attenuation)).1
          (rvrBandD t ref (pt.1 + sweep.fixed_attenuation)).2)).getD .explicitPass) ∧
    ((∃ a m lo up, rvrPassFailCheck t (some ref) sweep = .fail a m lo up) ↔
      ∃ pt ∈ sweep.points, rvrPointFails t ref sweep.fixed_attenuation pt = true) ∧
    (coexThroughputPassFailCheck p (some groups) = some false ↔
      p.failure_count_tolerance ≤ coexTotalFailures p.toTolParams groups) := by
  have hchar := rvrCheckPoints_eq_find t ref sweep.fixed_attenuation h2 sweep.points
  refine ⟨hchar, ?_, coexCheck_iff p groups hg hr⟩
  constructor
  · rintro ⟨a, m, lo, up, hres⟩
    have hres2 : rvrCheckPoints t ref sweep.fixed_attenuation sweep.points =
        .fail a m lo up := hres
    rcases hfind : sweep.points.find? (rvrPointFails t ref sweep.fixed_attenuation)
      with _ | pt
    · rw [hchar, hfind] at hres2
      simp at hres2
    · exact ⟨pt, List.mem_of_find?_eq_some hfind, List.find?_some hfind⟩
  · rintro ⟨pt, hmem, hp⟩
    have hsome : (sweep.points.find? (rvrPointFails t ref sweep.fixed_attenuation)).isSome := by
      rw [List.find?_isSome]
      exact ⟨pt, hmem, hp⟩
    rcases Option.isSome_iff_exists.1 hsome with ⟨pt2, hfind⟩
    refine ⟨pt2.1 + sweep.fixed_attenuation, pt2.2,
      (rvrBandD t ref (pt2.1 + sweep.fixed_attenuation)).1,
      (rvrBandD t ref (pt2.1 + sweep.fixed_attenuation)).2, ?_⟩
    show rvrCheckPoints t ref sweep.fixed_attenuation sweep.points = _
    rw [hchar, hfind]
    rfl

/-- C4 witness: the aggregation characterization at a concrete input
(an RvR sweep whose single point is out of limits, and a one-group
coexistence comparison with failure_count_tolerance 1). -/
theorem C4_witness :
    (rvrPassFailCheck ⟨5, 10⟩ (some ⟨[(0, 100), (10, 80)], 0⟩) ⟨[(0, 50)], 0⟩ =
      (([((0 : ℚ), (50 : ℚ))].find?
          (rvrPointFails ⟨5, 10⟩ ⟨[(0, 100), (10, 80)], 0⟩ 0)).map (fun pt =>
        RvrOutcome.fail (pt.1 + 0) pt.2
          (rvrBandD ⟨5, 10⟩ ⟨[(0, 100), (10, 80)], 0⟩ (pt.1 + 0)).1
          (rvrBandD ⟨5, 10⟩ ⟨[(0, 100), (10, 80)], 0⟩ (pt.1 + 0)).2)).getD
        .explicitPass) ∧
    ((∃ a m lo up, rvrPassFailCheck ⟨5, 10⟩ (some ⟨[(0, 100), (10, 80)], 0⟩)
        ⟨[(0, 50)], 0⟩ = .fail a m lo up) ↔
      ∃ pt ∈ [((0 : ℚ), (50 : ℚ))],
        rvrPointFails ⟨5, 10⟩ ⟨[(0, 100), (10, 80)], 0⟩ 0 pt = true) ∧
    (coexThroughputPassFailCheck ⟨⟨5, 10⟩, 1⟩
        (some [⟨⟨[(10, 40)], 0⟩, ⟨[(0, 100), (10, 80), (20, 50)], 0⟩⟩]) = some false ↔
      1 ≤ coexTotalFailures ⟨5, 10⟩
        [⟨⟨[(10, 40)], 0⟩, ⟨[(0, 100), (10, 80), (20, 50)], 0⟩⟩]) :=
  C4_aggregation ⟨5, 10⟩ ⟨[(0, 100), (10, 80)], 0⟩ ⟨[(0, 50)], 0⟩ ⟨⟨5, 10⟩, 1⟩
    [⟨⟨[(10, 40)], 0⟩, ⟨[(0, 100), (10, 80), (20, 50)], 0⟩⟩]
    (by simp) (by simp)
    (by intro g hg; rw [List.mem_singleton] at hg; subst hg; simp)

/-- C5 counterexample: a golden dataset with three points all at
effective attenuation 0 (throughputs 100, 100, 5), abs_tolerance 5,
pct_tolerance 0, compared against itself: the stable tie-break selects
the first two reference points for every sweep point, giving the band
[95, 105], so the third point (throughput 5) of the identity sweep is
flagged — the identity comparison does not always pass. -/
theorem C5_counterexample :
    rvrPassFailCheck ⟨5, 0⟩ (some ⟨[(0, 100), (0, 100), (0, 5)], 0⟩)
      ⟨[(0, 100), (0, 100), (0, 5)], 0⟩ = .fail 0 5 95 105 := by
  with_unfolding_all decide

/-- C5 (amended): when the effective reference attenuations are pairwise
distinct and the reference throughputs are nonnegative (and the golden
dataset has at least two points, abs_tolerance ≥ 0,
0 ≤ pct_tolerance ≤ 100), comparing the reference dataset against
itself passes: the RvR check ends in the explicit pass and the
coexistence check counts zero out-of-band points. -/
theorem C5_identity_pass (t : TolParams) (ref : RefData)
    (ha : 0 ≤ t.abs_tolerance) (hp0 : 0 ≤ t.pct_tolerance)
    (hp1 : t.pct_tolerance ≤ 100) (hnodup : (gldnAttenuation ref).Nodup)
    (hnn : ∀ pt ∈ ref.points, 0 ≤ pt.2) (h2 : 2 ≤ ref.points.length) :
    rvrPassFailCheck t (some ref) ref = .explicitPass ∧
    coexGroupFailures t ⟨ref, ref⟩ = 0 :=
  ⟨identity_rvr_pass t ref ha hnodup hnn h2,
   identity_coex_zero t ref ha hnodup hnn (by omega)⟩

/-- C5 witness: the identity comparison passes on the spec's worked
reference dataset. -/
theorem C5_witness :
    rvrPassFailCheck ⟨5, 10⟩ (some ⟨[(0, 100), (10, 80), (20, 50)], 0⟩)
      ⟨[(0, 100), (10, 80), (20, 50)], 0⟩ = .explicitPass ∧
    coexGroupFailures ⟨5, 10⟩
      ⟨⟨[(0, 100), (10, 80), (20, 50)], 0⟩, ⟨[(0, 100), (10, 80), (20, 50)], 0⟩⟩ = 0 :=
  C5_identity_pass ⟨5, 10⟩ ⟨[(0, 100), (10, 80), (20, 50)], 0⟩
    (by norm_num) (by norm_num) (by norm_num)
    (by with_unfolding_all decide) (by with_unfolding_all decide) (by simp)

/-- C6 counterexample: with an available golden file and an empty
measurement stream the RvR comparator returns the explicit pass verdict
(the loop body never runs and the method ends in
`asserts.explicit_pass`); no "no data" condition exists, refuting the
claim that an empty sweep does not produce a pass. -/
theorem C6_counterexample :
    rvrPassFailCheck ⟨5, 10⟩ (some ⟨[(0, 100), (10, 80)], 0⟩) ⟨[], 0⟩ =
      .explicitPass := rfl

/-- C6 (amended): for every golden dataset and tolerance configuration,
an empty measurement stream makes the RvR comparator return the explicit
pass verdict; no distinct "no data" outcome is reported. -/
theorem C6_empty_sweep (t : TolParams) (ref : RefData) (f : ℚ) :
    rvrPassFailCheck t (some ref) ⟨[], f⟩ = .explicitPass := rfl

/-- C7: a missing or malformed baseline is reported differently from an
out-of-tolerance sweep.  In the RvR comparator the golden-file exception
propagates (`refUnavailable`), which is never the `fail` verdict; in the
coexistence comparator the exception path returns Python `None`
(embedded `none`), never the `False` failure verdict, so a missing
baseline never produces the same result as a failing comparison. -/
theorem C7_ref_unavailable_distinct (t : TolParams) (sweep : RefData) (p : CoexParams) :
    rvrPassFailCheck t none sweep = RvrOutcome.refUnavailable ∧
    (∀ a m lo up, rvrPassFailCheck t none sweep ≠ RvrOutcome.fail a m lo up) ∧
    coexThroughputPassFailCheck p none = none ∧
    (∀ groups : List CoexGroup,
      coexThroughputPassFailCheck p (some groups) = some false →
      coexThroughputPassFailCheck p none ≠
        coexThroughputPassFailCheck p (some groups)) := by
  refine ⟨rfl, ?_, rfl, ?_⟩
  · intro a m lo up h
    exact RvrOutcome.noConfusion h
  · intro groups h
    rw [h]
    show (none : Option Bool) ≠ some false
    simp

/-- C10: with failure_count_tolerance 0 the coexistence check returns
the failure verdict on every comparison that reaches the counting loop
(at least one bt-attenuation group, nonempty baselines), because the
accumulated count starts at 0 and `0 >= 0` already holds after the first
group — even when every point is inside its band. -/
theorem C10_zero_tolerance (p : CoexParams) (groups : List CoexGroup)
    (h0 : p.failure_count_tolerance = 0) (hg : groups ≠ [])
    (hr : ∀ g ∈ groups, g.ref.points ≠ []) :
    coexThroughputPassFailCheck p (some groups) = some false := by
  rw [coexCheck_iff p groups hg hr, h0]
  exact Nat.zero_le _

/-- C10 witness: with tolerance 0 the check fails even on a sweep whose
single point sits exactly on its reference curve. -/
theorem C10_witness :
    coexThroughputPassFailCheck ⟨⟨5, 10⟩, 0⟩
      (some [⟨⟨[(10, 80)], 0⟩, ⟨[(0, 100), (10, 80), (20, 50)], 0⟩⟩]) = some false :=
  C10_zero_tolerance ⟨⟨5, 10⟩, 0⟩
    [⟨⟨[(10, 80)], 0⟩, ⟨[(0, 100), (10, 80), (20, 50)], 0⟩⟩] rfl (by simp)
    (by intro g hg; rw [List.mem_singleton] at hg; subst hg; simp)

/-- C8: when the peer delivers the response as full-buffer reads (every
chunk exactly 1024 bytes, so the response length is an exact multiple of
the buffer size) and then closes the connection, `_recv` does not hang:
the end-of-stream read decodes to the empty string, which is shorter
than the buffer size and ends the loop, returning the accumulated text
with trailing terminators stripped; with the connection left open
instead, the blocked read raises the timeout receive error. -/
theorem C8_recv_exact_multiple (chunks : List (List ℕ))
    (h : ∀ c ∈ chunks, c.length = socketBufferSize) :
    socketRecv true chunks = some (rstripNewline (decodeChunk chunks.flatten)) ∧
    socketRecv false chunks = none := by
  have hf := recvAux_full chunks h ""
  constructor
  · rw [socketRecv, hf.1]
    have hempty : ("" : String) ++ decodeChunk chunks.flatten =
        decodeChunk chunks.flatten := rfl
    rw [hempty]
    rfl
  · rw [socketRecv, hf.2]
    rfl

/-- C8 witness: a single full 1024-byte chunk followed by end of stream
returns the decoded text; the same data on a connection that stays open
ends in the timeout error. -/
theorem C8_witness :
    socketRecv true [List.replicate 1024 65] =
      some (rstripNewline (decodeChunk (List.flatten [List.replicate 1024 65]))) ∧
    socketRecv false [List.replicate 1024 65] = none :=
  C8_recv_exact_multiple [List.replicate 1024 65]
    (by intro c hc; rw [List.mem_singleton] at hc; subst hc
        rw [List.length_replicate, socketBufferSize])

/-- C9: `_query(command)` writes exactly the UTF-8 bytes of the command
followed by `;*OPC?` followed by the line terminator, then performs
exactly one receive; in particular `_query('*RST')` writes the UTF-8
bytes of `*RST;*OPC?` plus newline, 42 82 83 84 59 42 79 80 67 63 10. -/
theorem C9_query_bytes (cmd : String) :
    queryEvents cmd = [.sent (utf8Bytes (cmd ++ ";*OPC?" ++ "\n")), .recvCall] ∧
    queryEvents "*RST" =
      [.sent [42, 82, 83, 84, 59, 42, 79, 80, 67, 63, 10], .recvCall] ∧
    ((queryEvents cmd).filter isRecvCall).length = 1 := by
  refine ⟨rfl, ?_, rfl⟩
  with_unfolding_all decide

end Spec2Proof
